import Mathlib

/-!
A verification development for the in-memory index model of a peer-to-peer
file synchronization engine.  The Go source (package `model`, files
`model.go` / `filemodel helpers` / `protocol` constants) is shallowly
embedded: Go maps become association lists with deterministic iteration
order, `time.Now()` becomes an explicit `now : Int` parameter (epoch
seconds, or nanoseconds where the source compares `time.Duration`s), and
machine-integer arithmetic is `Nat` with an explicit modulus where the
source can overflow (`uint32` version bumps, `uint64` offset sums).
-/

namespace Syncthing

/-- Protocol flag bit: file deleted (`protocol.FlagDeleted = 1 << 12`). -/
def FlagDeleted : Nat := 4096

/-- Protocol flag bit: file invalid (`protocol.FlagInvalid = 1 << 13`). -/
def FlagInvalid : Nat := 8192

/-- Protocol flag bit: directory (`protocol.FlagDirectory = 1 << 14`). -/
def FlagDirectory : Nat := 16384

/-- `2 ^ 32`, the modulus of Go's `uint32` arithmetic (`File.Version`). -/
def uint32Mod : Nat := 4294967296

/-- `2 ^ 64`, the modulus of Go's `uint64` arithmetic (block offsets). -/
def uint64Mod : Nat := 18446744073709551616

/-- A content block: `type Block struct { Offset uint64; Length uint32; Hash []byte }`. -/
structure Block where
  Offset : Nat
  Length : Nat
  Hash : List Nat
deriving DecidableEq, Repr

/-- A file record: `type File struct { Name string; Flags uint32; Modified int64;
Version uint32; Blocks []Block }`. -/
structure File where
  Name : String
  Flags : Nat
  Modified : Int
  Version : Nat
  Blocks : List Block
deriving DecidableEq, Repr

/-- `func (f File) Equals(o File) bool { return f.Modified == o.Modified && f.Version == o.Version }` -/
def File.Equals (f o : File) : Bool :=
  decide (f.Modified = o.Modified ∧ f.Version = o.Version)

/-- `func (f File) NewerThan(o File) bool { return f.Modified > o.Modified ||
(f.Modified == o.Modified && f.Version > o.Version) }` -/
def File.NewerThan (f o : File) : Bool :=
  decide (f.Modified > o.Modified ∨ (f.Modified = o.Modified ∧ f.Version > o.Version))

/-- The zero value of Go's `File` type, produced by a lookup of a missing key
in a `map[string]File`. -/
def zeroFile : File := ⟨"", 0, 0, 0, []⟩

/-- Protocol block info: `type BlockInfo struct { Length uint32; Hash []byte }`. -/
structure BlockInfo where
  Length : Nat
  Hash : List Nat
deriving DecidableEq, Repr

/-- Protocol file info: `type FileInfo struct { Name string; Flags uint32;
Modified int64; Version uint32; Blocks []BlockInfo }`. -/
structure FileInfo where
  Name : String
  Flags : Nat
  Modified : Int
  Version : Nat
  Blocks : List BlockInfo
deriving DecidableEq, Repr

/-- Association-list lookup, the embedding of Go's `v, ok := m[k]`. -/
def alookup {α β : Type} [DecidableEq α] : List (α × β) → α → Option β
  | [], _ => none
  | p :: rest, k => if p.1 = k then some p.2 else alookup rest k

/-- Association-list insertion, the embedding of Go's `m[k] = v`: replaces the
first binding of the key in place, otherwise appends. -/
def upsert {α β : Type} [DecidableEq α] : List (α × β) → α → β → List (α × β)
  | [], k, v => [(k, v)]
  | p :: rest, k, v => if p.1 = k then (k, v) :: rest else p :: upsert rest k v

/-- Association-list removal, the embedding of Go's `delete(m, k)`. -/
def eraseKey {α β : Type} [DecidableEq α] : List (α × β) → α → List (α × β)
  | [], _ => []
  | p :: rest, k => if p.1 = k then rest else p :: eraseKey rest k

/-- A Go `map[string]File`. -/
abbrev FMap : Type := List (String × File)

/-- Lookup defaulting to the zero `File`, the embedding of Go's unchecked
`m[k]` read on a `map[string]File`. -/
def getOr (m : FMap) (k : String) : File := (alookup m k).getD zeroFile

/-- Keys of an association list are pairwise distinct (always true of the
embedding of a Go map built by `upsert`). -/
abbrev NodupKeys {β : Type} (m : List (String × β)) : Prop :=
  (m.map Prod.fst).Nodup

/-- The model state: the fields of `type Model struct` that the index
semantics reads or writes (connection tables, trace flags and the walker's
suppression tables are orthogonal to the claims and omitted).  `delete` is
the flag set by `StartRW`. -/
structure Model where
  «local» : FMap
  global : FMap
  remote : List (String × FMap)
  need : List String
  delete : Bool
  updatedLocal : Int
  updateGlobal : Int
  lastIdxBcastRequest : Int
deriving DecidableEq, Repr

/-- The state `NewModel` constructs: all maps empty, timestamps zero. -/
def emptyModel : Model := ⟨[], [], [], [], false, 0, 0, 0⟩

/-- `func (m *Model) Generation() int64 { return m.updatedLocal + m.updateGlobal }` -/
def Model.Generation (m : Model) : Int := m.updatedLocal + m.updateGlobal

/-- One step of `recomputeGlobal`'s remote loop body:
`if lf, ok := newGlobal[n]; !ok || nf.NewerThan(lf) { newGlobal[n] = nf }`. -/
def considerEntry (g : FMap) (n : String) (nf : File) : FMap :=
  match alookup g n with
  | none => upsert g n nf
  | some lf => if nf.NewerThan lf then upsert g n nf else g

/-- `recomputeGlobal`'s inner loop over one peer's map. -/
def mergePeer (g : FMap) (fs : FMap) : FMap :=
  fs.foldl (fun g q => considerEntry g q.1 q.2) g

/-- The map `recomputeGlobal` constructs: seed with all of `local`, then for
each peer's map overwrite iff the candidate is `NewerThan` the incumbent. -/
def computeGlobal (m : Model) : FMap :=
  m.remote.foldl (fun g p => mergePeer g p.2) m.«local»

/-- `recomputeGlobal`'s change detection: length differs, or some entry of the
new map is absent from or not `Equals` the old map's entry. -/
def globalUpdated (newG oldG : FMap) : Bool :=
  decide (newG.length ≠ oldG.length) ||
    newG.any (fun p =>
      match alookup oldG p.1 with
      | none => true
      | some f1 => !(p.2.Equals f1))

/-- `func (m *Model) recomputeGlobal()`: build the candidate map, publish it
and stamp `updateGlobal` only if it differs from the previous `global`. -/
def Model.recomputeGlobal (m : Model) (now : Int) : Model :=
  if globalUpdated (computeGlobal m) m.global then
    { m with global := computeGlobal m, updateGlobal := now }
  else m

/-- The filter of `recomputeNeed`: include a `global` entry iff it is
`NewerThan` the local record (or the name is absent locally), it is not
INVALID, and a DELETED record is only needed when deletion is enabled and a
local copy exists. -/
def needCond (m : Model) (n : String) (gf : File) : Bool :=
  (match alookup m.«local» n with
   | none => true
   | some lf => gf.NewerThan lf) &&
  (gf.Flags &&& FlagInvalid == 0) &&
  (gf.Flags &&& FlagDeleted == 0 || m.delete) &&
  (gf.Flags &&& FlagDeleted == 0 || (alookup m.«local» n).isSome)

/-- `func (m *Model) recomputeNeed()`: rebuild `need` from scratch by walking
`global`. -/
def Model.recomputeNeed (m : Model) : Model :=
  { m with need := (m.global.filter (fun p => needCond m p.1 p.2)).map Prod.fst }

/-- The mutated record `markDeletedLocals` builds for a not-yet-deleted
missing file: `f.Flags = protocol.FlagDeleted; f.Version++; f.Blocks = nil`.
The version bump is Go `uint32` arithmetic. -/
def tombstone (f : File) : File :=
  { f with Flags := FlagDeleted, Version := (f.Version + 1) % uint32Mod, Blocks := [] }

/-- The loop body of `markDeletedLocals`, threading the `updated` flag and the
`newLocal` map being mutated. -/
def markStep (m : Model) (acc : Bool × FMap) (p : String × File) : Bool × FMap :=
  match alookup acc.2 p.1 with
  | some _ => acc
  | none =>
    if (getOr m.global p.1).NewerThan p.2 then acc
    else if p.2.Flags &&& FlagDeleted == 0 then
      (true, upsert acc.2 p.1 (tombstone p.2))
    else (acc.1, upsert acc.2 p.1 p.2)

/-- `func (m *Model) markDeletedLocals(newLocal map[string]File) bool`: for
every file of the old `local` missing from `newLocal`, insert a tombstone
when the global is not strictly newer; report whether any flag was changed. -/
def Model.markDeletedLocals (m : Model) (newLocal : FMap) : Bool × FMap :=
  m.«local».foldl (markStep m) (false, newLocal)

/-- `func (m *Model) ReplaceLocal(fs []File)`: rebuild `local` from a disk
scan, run deletion marking, and commit (with recomputation and timestamps)
only when a change was detected. -/
def Model.ReplaceLocal (m : Model) (fs : List File) (now : Int) : Model :=
  let newLocal0 := fs.foldl (fun nl f => upsert nl f.Name f) []
  let updated0 := fs.any (fun f => !(getOr m.«local» f.Name).Equals f)
  let md := m.markDeletedLocals newLocal0
  if updated0 || md.1 || decide (md.2.length ≠ m.«local».length) then
    { (({ m with «local» := md.2 }).recomputeGlobal now).recomputeNeed with
        updatedLocal := now, lastIdxBcastRequest := now }
  else m

/-- `func (m *Model) updateLocal(f File)`: insert the record and recompute
unless an `Equals` record is already present. -/
def Model.updateLocal (m : Model) (f : File) (now : Int) : Model :=
  match alookup m.«local» f.Name with
  | some ef =>
    if ef.Equals f then m
    else
      { (({ m with «local» := upsert m.«local» f.Name f }).recomputeGlobal now).recomputeNeed with
          updatedLocal := now, lastIdxBcastRequest := now }
  | none =>
      { (({ m with «local» := upsert m.«local» f.Name f }).recomputeGlobal now).recomputeNeed with
          updatedLocal := now, lastIdxBcastRequest := now }

/-- `func fileFromFileInfo(f protocol.FileInfo) File`: regenerate block
offsets as the running (`uint64`) sum of the block lengths. -/
def fileFromFileInfo (f : FileInfo) : File :=
  let r := f.Blocks.foldl
    (fun (acc : List Block × Nat) b =>
      (acc.1 ++ [⟨acc.2, b.Length, b.Hash⟩], (acc.2 + b.Length) % uint64Mod))
    ([], 0)
  ⟨f.Name, f.Flags, f.Modified, f.Version, r.1⟩

/-- `func fileInfoFromFile(f File) protocol.FileInfo`: drop the offsets. -/
def fileInfoFromFile (f : File) : FileInfo :=
  ⟨f.Name, f.Flags, f.Modified, f.Version, f.Blocks.map (fun b => ⟨b.Length, b.Hash⟩)⟩

/-- The peer map `Index` builds: `m.remote[nodeID] = make(map[string]File)`
then `m.remote[nodeID][f.Name] = fileFromFileInfo(f)` for each entry. -/
def buildRemote (fs : List FileInfo) : FMap :=
  fs.foldl (fun r f => upsert r f.Name (fileFromFileInfo f)) []

/-- `func (m *Model) Index(nodeID string, fs []protocol.FileInfo)`: replace
the peer's map wholesale, then recompute global and need. -/
def Model.Index (m : Model) (nodeID : String) (fs : List FileInfo) (now : Int) : Model :=
  (({ m with remote := upsert m.remote nodeID (buildRemote fs) }).recomputeGlobal now).recomputeNeed

/-- `func (m *Model) IndexUpdate(nodeID string, fs []protocol.FileInfo)`:
merge into the peer's existing map; a no-op for an unknown peer. -/
def Model.IndexUpdate (m : Model) (nodeID : String) (fs : List FileInfo) (now : Int) : Model :=
  match alookup m.remote nodeID with
  | none => m
  | some repo =>
    let repo' := fs.foldl (fun r f => upsert r f.Name (fileFromFileInfo f)) repo
    (({ m with remote := upsert m.remote nodeID repo' }).recomputeGlobal now).recomputeNeed

/-- `func (m *Model) Close(node string, err error)`: drop the peer's index and
recompute. -/
def Model.Close (m : Model) (node : String) (now : Int) : Model :=
  (({ m with remote := eraseKey m.remote node }).recomputeGlobal now).recomputeNeed

/-- `func (m *Model) SeedLocal(fs []protocol.FileInfo)`: replace `local`
verbatim (no deletion tracking), then recompute.  Its loop is the same
`m[f.Name] = fileFromFileInfo(f)` loop as `Index`'s. -/
def Model.SeedLocal (m : Model) (fs : List FileInfo) (now : Int) : Model :=
  (({ m with «local» := buildRemote fs }).recomputeGlobal now).recomputeNeed

/-- Outcome of `Model.Request` up to the point where it touches the disk:
the guards are the modelled behaviour, the disk read is external. -/
inductive RequestResult where
  | noSuchFile
  | invalid
  | diskRead (name : String) (offset : Nat) (size : Nat)
deriving DecidableEq, Repr

/-- `func (m *Model) Request(nodeID, name string, offset uint64, size uint32,
hash []byte)`: reject with `ErrNoSuchFile` unless the name is in both `local`
and `global`, then with `ErrInvalid` if the local record is INVALID;
otherwise proceed to the disk read. -/
def Model.Request (m : Model) (nodeID : String) (name : String) (offset : Nat)
    (size : Nat) (hash : List Nat) : RequestResult :=
  match alookup m.«local» name, alookup m.global name with
  | some lf, some _ =>
    if lf.Flags &&& FlagInvalid != 0 then .invalid
    else .diskRead name offset size
  | _, _ => .noSuchFile

/-- One second in the units of Go's `time.Duration` (nanoseconds). -/
def nsPerSecond : Int := 1000000000

/-- `minFileHoldTimeS = 60`. -/
def minFileHoldTimeS : Int := 60

/-- `maxFileHoldTimeS = 600`. -/
def maxFileHoldTimeS : Int := 600

/-- `func shouldSuppressChange(lastChange time.Time, numChanges int) bool`,
with `time.Since(lastChange)` made explicit as `now - lastChange`
(nanoseconds). -/
def shouldSuppressChange (now lastChange : Int) (numChanges : Int) : Bool :=
  let sinceLast := now - lastChange
  if sinceLast > maxFileHoldTimeS * nsPerSecond then false
  else if sinceLast < (numChanges + 2) * minFileHoldTimeS * nsPerSecond then true
  else false

/-! ### Ordering lemmas for `File.Equals` and `File.NewerThan` -/

theorem File.newerThan_iff (f o : File) :
    f.NewerThan o = true ↔
      (o.Modified < f.Modified ∨ (f.Modified = o.Modified ∧ o.Version < f.Version)) := by
  simp [File.NewerThan]

theorem File.not_newerThan_iff (f o : File) :
    f.NewerThan o = false ↔
      (f.Modified < o.Modified ∨ (f.Modified = o.Modified ∧ f.Version ≤ o.Version)) := by
  rw [← Bool.not_eq_true, File.newerThan_iff]
  constructor
  · intro h
    rcases lt_trichotomy f.Modified o.Modified with hm | hm | hm
    · exact Or.inl hm
    · refine Or.inr ⟨hm, ?_⟩
      by_contra hv
      exact h (Or.inr ⟨hm, by omega⟩)
    · exact absurd (Or.inl hm) h
  · rintro (hm | ⟨hm, hv⟩) <;> rintro (h | ⟨he, hv'⟩) <;> omega

theorem File.equals_iff (f o : File) :
    f.Equals o = true ↔ (f.Modified = o.Modified ∧ f.Version = o.Version) := by
  simp [File.Equals]

theorem File.newerThan_irrefl (f : File) : f.NewerThan f = false := by
  rw [File.not_newerThan_iff]; omega

theorem File.not_newerThan_trans {a b c : File} (h1 : a.NewerThan b = false)
    (h2 : b.NewerThan c = false) : a.NewerThan c = false := by
  rw [File.not_newerThan_iff] at h1 h2 ⊢
  rcases h1 with h1 | h1 <;> rcases h2 with h2 | h2
  · exact Or.inl (h1.trans h2)
  · exact Or.inl (by omega)
  · exact Or.inl (by omega)
  · exact Or.inr ⟨by omega, by omega⟩

theorem File.not_newerThan_of_newer {v c r : File} (h1 : v.NewerThan c = true)
    (h2 : v.NewerThan r = false) : c.NewerThan r = false := by
  rw [File.newerThan_iff] at h1
  rw [File.not_newerThan_iff] at h2 ⊢
  rcases h1 with h1 | h1 <;> rcases h2 with h2 | h2 <;>
    first
      | exact Or.inl (by omega)
      | (rcases Int.lt_or_lt_of_ne (show c.Modified ≠ r.Modified ∨ _ from by omega).elim ?_ ?_ with h | h)
      | exact Or.inr ⟨by omega, by omega⟩

theorem File.newerThan_congr_left {a b c : File} (h : a.Equals b = true) :
    a.NewerThan c = b.NewerThan c := by
  rw [File.equals_iff] at h
  rcases hb : b.NewerThan c with _ | _
  · rw [File.not_newerThan_iff] at hb ⊢; omega
  · rw [File.newerThan_iff] at hb ⊢; omega

theorem File.newerThan_congr_right {a b c : File} (h : a.Equals b = true) :
    c.NewerThan a = c.NewerThan b := by
  rw [File.equals_iff] at h
  rcases hb : c.NewerThan b with _ | _
  · rw [File.not_newerThan_iff] at hb ⊢; omega
  · rw [File.newerThan_iff] at hb ⊢; omega

theorem File.equals_refl (f : File) : f.Equals f = true := by
  rw [File.equals_iff]; exact ⟨rfl, rfl⟩

theorem File.equals_symm {f o : File} (h : f.Equals o = true) : o.Equals f = true := by
  rw [File.equals_iff] at h ⊢; omega

/-! ### Association-list lemmas -/

theorem alookup_upsert {α β : Type} [DecidableEq α] (l : List (α × β)) (k : α) (v : β)
    (n : α) : alookup (upsert l k v) n = if k = n then some v else alookup l n := by
  induction l with
  | nil => simp [upsert, alookup]
  | cons p rest ih =>
    simp only [upsert]
    by_cases hpk : p.1 = k
    · rw [if_pos hpk]
      by_cases hkn : k = n
      · simp [alookup, hkn]
      · have hpn : ¬ p.1 = n := by rw [hpk]; exact hkn
        simp [alookup, hkn, hpn]
    · rw [if_neg hpk]
      by_cases hpn : p.1 = n
      · have hkn : ¬ k = n := fun h => hpk (by rw [hpn, h])
        simp [alookup, hpn, hkn]
      · simp [alookup, hpn, ih]

theorem upsert_of_alookup_none {α β : Type} [DecidableEq α] {l : List (α × β)} {k : α}
    (v : β) (h : alookup l k = none) : upsert l k v = l ++ [(k, v)] := by
  induction l with
  | nil => simp [upsert]
  | cons p rest ih =>
    by_cases hpk : p.1 = k
    · simp [alookup, hpk] at h
    · simp [alookup, hpk] at h
      simp [upsert, hpk, ih h]

theorem length_upsert_of_alookup_none {α β : Type} [DecidableEq α] {l : List (α × β)}
    {k : α} (v : β) (h : alookup l k = none) :
    (upsert l k v).length = l.length + 1 := by
  rw [upsert_of_alookup_none v h]; simp

theorem length_upsert_of_alookup_some {α β : Type} [DecidableEq α] {l : List (α × β)}
    {k : α} {w : β} (v : β) (h : alookup l k = some w) :
    (upsert l k v).length = l.length := by
  induction l with
  | nil => simp [alookup] at h
  | cons p rest ih =>
    by_cases hpk : p.1 = k
    · simp [upsert, hpk]
    · simp [alookup, hpk] at h
      simp [upsert, hpk, ih h]

theorem alookup_append {α β : Type} [DecidableEq α] (l1 l2 : List (α × β)) (n : α) :
    alookup (l1 ++ l2) n =
      match alookup l1 n with
      | some v => some v
      | none => alookup l2 n := by
  induction l1 with
  | nil => simp [alookup]
  | cons p rest ih =>
    by_cases hpn : p.1 = n <;> simp [alookup, hpn, ih]

theorem alookup_some_mem {α β : Type} [DecidableEq α] {l : List (α × β)} {n : α} {v : β}
    (h : alookup l n = some v) : (n, v) ∈ l := by
  induction l with
  | nil => simp [alookup] at h
  | cons p rest ih =>
    by_cases hpn : p.1 = n
    · simp [alookup, hpn] at h
      have hp : p = (n, v) := by
        rcases p with ⟨a, b⟩
        simp at hpn h
        simp [hpn, h]
      rw [← hp]
      exact List.mem_cons_self p rest
    · simp [alookup, hpn] at h
      exact List.mem_cons_of_mem _ (ih h)

theorem alookup_isSome_of_mem {α β : Type} [DecidableEq α] {l : List (α × β)} {p : α × β}
    (h : p ∈ l) : (alookup l p.1).isSome := by
  induction l with
  | nil => simp at h
  | cons q rest ih =>
    rcases List.mem_cons.mp h with rfl | h
    · simp [alookup]
    · by_cases hq : q.1 = p.1 <;> simp [alookup, hq, ih h]

theorem mem_keys_of_alookup_isSome {α β : Type} [DecidableEq α] {l : List (α × β)} {n : α}
    (h : (alookup l n).isSome) : n ∈ l.map Prod.fst := by
  induction l with
  | nil => simp [alookup] at h
  | cons p rest ih =>
    by_cases hpn : p.1 = n
    · simp [hpn]
    · simp [alookup, hpn] at h
      simp [ih h]

theorem alookup_isSome_of_mem_keys {α β : Type} [DecidableEq α] {l : List (α × β)} {n : α}
    (h : n ∈ l.map Prod.fst) : (alookup l n).isSome := by
  induction l with
  | nil => simp at h
  | cons p rest ih =>
    by_cases hpn : p.1 = n
    · simp [alookup, hpn]
    · simp [hpn] at h
      rcases h with h | h
      · exact absurd h.symm hpn
      · simp [alookup, hpn]
        exact ih (by simpa using h)

theorem alookup_of_mem_nodupKeys {β : Type} {l : List (String × β)} {n : String} {v : β}
    (hnd : NodupKeys l) (h : (n, v) ∈ l) : alookup l n = some v := by
  induction l with
  | nil => simp at h
  | cons p rest ih =>
    rcases List.mem_cons.mp h with rfl | h
    · simp [alookup]
    · have hpn : p.1 ≠ n := by
        intro hpn
        have : n ∈ rest.map Prod.fst := by
          exact List.mem_map.mpr ⟨(n, v), h, rfl⟩
        have := (List.nodup_cons.mp hnd).1
        rw [hpn] at this
        exact this ‹n ∈ rest.map Prod.fst›
      have hrest : NodupKeys rest := (List.nodup_cons.mp hnd).2
      simp [alookup, hpn, ih hrest h]

theorem nodupKeys_upsert {β : Type} {l : List (String × β)} (k : String) (v : β)
    (hnd : NodupKeys l) : NodupKeys (upsert l k v) := by
  induction l with
  | nil => simp [upsert, NodupKeys]
  | cons p rest ih =>
    simp only [NodupKeys, List.map_cons, List.nodup_cons] at hnd
    have h1 := hnd.1
    have h2 := hnd.2
    simp only [upsert]
    by_cases hpk : p.1 = k
    · rw [if_pos hpk]
      simp only [NodupKeys, List.map_cons, List.nodup_cons]
      exact ⟨by rw [← hpk]; exact h1, h2⟩
    · rw [if_neg hpk]
      simp only [NodupKeys, List.map_cons, List.nodup_cons]
      refine ⟨?_, ih h2⟩
      intro hmem
      have hsome := alookup_isSome_of_mem_keys hmem
      rw [alookup_upsert] at hsome
      by_cases hkp : k = p.1
      · exact hpk hkp.symm
      · rw [if_neg hkp] at hsome
        exact h1 (mem_keys_of_alookup_isSome hsome)

/-! ### Characterizing `computeGlobal` -/

/-- The scalar decision `recomputeGlobal` makes per candidate: keep the
incumbent unless the candidate is strictly `NewerThan` it. -/
def pickNewer (cur : Option File) (c : File) : Option File :=
  match cur with
  | none => some c
  | some lf => if c.NewerThan lf then some c else some lf

/-- The remote records stored under a given name, in peer-map iteration
order. -/
def remoteRecords (m : Model) (n : String) : List File :=
  (m.remote.map (fun p => (p.2.filter (fun q => decide (q.1 = n))).map Prod.snd)).flatten

/-- The candidate set of the spec: the local record (if any) followed by
every remote record for the name. -/
def candidates (m : Model) (n : String) : List File :=
  (alookup m.«local» n).toList ++ remoteRecords m n

theorem alookup_considerEntry (g : FMap) (k : String) (v : File) (n : String) :
    alookup (considerEntry g k v) n =
      if k = n then pickNewer (alookup g n) v else alookup g n := by
  unfold considerEntry
  by_cases hkn : k = n
  · subst hkn
    rcases hg : alookup g k with _ | lf
    · simp [hg, alookup_upsert, pickNewer]
    · simp only [hg, pickNewer]
      by_cases hnew : v.NewerThan lf <;> simp [hnew, alookup_upsert, hg]
  · rcases hg : alookup g k with _ | lf
    · simp [hg, alookup_upsert, hkn]
    · by_cases hnew : v.NewerThan lf <;> simp [hnew, alookup_upsert, hkn, hg]

theorem alookup_mergePeer (fs : FMap) : ∀ (g : FMap) (n : String),
    alookup (mergePeer g fs) n =
      ((fs.filter (fun q => decide (q.1 = n))).map Prod.snd).foldl pickNewer (alookup g n) := by
  induction fs with
  | nil => intro g n; simp [mergePeer]
  | cons q rest ih =>
    intro g n
    show alookup (mergePeer (considerEntry g q.1 q.2) rest) n = _
    rw [ih]
    by_cases hq : q.1 = n
    · simp [List.filter, hq, alookup_considerEntry, pickNewer]
    · simp [List.filter, hq, alookup_considerEntry]

theorem alookup_computeGlobal (m : Model) (n : String) :
    alookup (computeGlobal m) n = (remoteRecords m n).foldl pickNewer (alookup m.«local» n) := by
  unfold computeGlobal remoteRecords
  generalize m.«local» = seed
  induction m.remote generalizing seed with
  | nil => simp
  | cons p ps ih =>
    simp only [List.foldl_cons, List.map_cons, List.flatten_cons, List.foldl_append]
    rw [ih (mergePeer seed p.2), alookup_mergePeer]

theorem foldl_pickNewer_some (vals : List File) :
    ∀ (init : Option File), ∃ r, vals.foldl pickNewer init = some r ∨
      (vals = [] ∧ init = none ∧ vals.foldl pickNewer init = none) := by
  intro init
  induction vals generalizing init with
  | nil =>
    rcases init with _ | c
    · exact ⟨zeroFile, Or.inr ⟨rfl, rfl, rfl⟩⟩
    · exact ⟨c, Or.inl rfl⟩
  | cons v vs ih =>
    rcases ih (pickNewer init v) with ⟨r, hr | ⟨hnil, hnone, _⟩⟩
    · exact ⟨r, Or.inl hr⟩
    · exfalso
      rcases init with _ | c
      · simp [pickNewer] at hnone
      · simp [pickNewer] at hnone
        split at hnone <;> simp at hnone

theorem foldl_pickNewer_mem (vals : List File) :
    ∀ (init : Option File) (r : File), vals.foldl pickNewer init = some r →
      init = some r ∨ r ∈ vals := by
  induction vals with
  | nil => intro init r h; exact Or.inl h
  | cons v vs ih =>
    intro init r h
    rcases ih (pickNewer init v) r h with hstep | hmem
    · rcases init with _ | c
      · simp [pickNewer] at hstep
        simp [hstep]
      · simp only [pickNewer] at hstep
        split at hstep
        · simp at hstep; simp [hstep]
        · simp at hstep; exact Or.inl (by rw [hstep])
    · exact Or.inr (List.mem_cons_of_mem _ hmem)

theorem foldl_pickNewer_max (vals : List File) :
    ∀ (init : Option File) (r : File), vals.foldl pickNewer init = some r →
      (∀ c, init = some c → c.NewerThan r = false) ∧
      (∀ d ∈ vals, d.NewerThan r = false) := by
  induction vals with
  | nil =>
    intro init r h
    refine ⟨?_, by simp⟩
    intro c hc
    rw [hc] at h
    simp at h
    subst h
    exact File.newerThan_irrefl _
  | cons v vs ih =>
    intro init r h
    have hstep := ih (pickNewer init v) r h
    have hvr : v.NewerThan r = false := by
      rcases init with _ | c
      · exact hstep.1 v rfl
      · simp only [pickNewer] at hstep
        by_cases hnew : v.NewerThan c
        · exact hstep.1 v (by simp [hnew])
        · have hcr := hstep.1 c (by simp [hnew])
          exact File.not_newerThan_trans (by simpa using hnew) hcr
    refine ⟨?_, ?_⟩
    · intro c hc
      subst hc
      simp only [pickNewer] at hstep
      by_cases hnew : v.NewerThan c
      · have hvr' := hstep.1 v (by simp [hnew])
        exact File.not_newerThan_of_newer hnew hvr'
      · exact hstep.1 c (by simp [hnew])
    · intro d hd
      rcases List.mem_cons.mp hd with rfl | hd
      · exact hvr
      · exact hstep.2 d hd

theorem foldl_pickNewer_keep (vals : List File) (lf : File)
    (h : ∀ d ∈ vals, d.NewerThan lf = false) :
    vals.foldl pickNewer (some lf) = some lf := by
  induction vals with
  | nil => rfl
  | cons v vs ih =>
    have hv : v.NewerThan lf = false := h v (List.mem_cons_self _ _)
    show vs.foldl pickNewer (pickNewer (some lf) v) = some lf
    simp only [pickNewer, hv]
    exact ih (fun d hd => h d (List.mem_cons_of_mem _ hd))

theorem nodupKeys_considerEntry {g : FMap} (k : String) (v : File)
    (hnd : NodupKeys g) : NodupKeys (considerEntry g k v) := by
  unfold considerEntry
  rcases alookup g k with _ | lf
  · exact nodupKeys_upsert k v hnd
  · by_cases hnew : v.NewerThan lf <;> simp [hnew, nodupKeys_upsert, hnd]

theorem nodupKeys_mergePeer (fs : FMap) : ∀ {g : FMap}, NodupKeys g →
    NodupKeys (mergePeer g fs) := by
  induction fs with
  | nil => intro g h; exact h
  | cons q rest ih =>
    intro g h
    exact ih (nodupKeys_considerEntry q.1 q.2 h)

theorem nodupKeys_computeGlobal (m : Model) (hl : NodupKeys m.«local») :
    NodupKeys (computeGlobal m) := by
  unfold computeGlobal
  generalize hseed : m.«local» = seed
  rw [hseed] at hl
  clear hseed
  induction m.remote generalizing seed with
  | nil => exact hl
  | cons p ps ih => exact ih (mergePeer seed p.2) (nodupKeys_mergePeer p.2 hl)

/-! ### Characterizing maps built by repeated `upsert` -/

/-- The last element of a list satisfying a predicate (the binding that
survives when a Go map is filled in list order). -/
def lastWith {α : Type} (p : α → Bool) : List α → Option α
  | [] => none
  | x :: rest =>
    match lastWith p rest with
    | some r => some r
    | none => if p x then some x else none

theorem lastWith_some_mem {α : Type} {p : α → Bool} {xs : List α} {r : α}
    (h : lastWith p xs = some r) : r ∈ xs ∧ p r = true := by
  induction xs with
  | nil => cases h
  | cons x rest ih =>
    simp only [lastWith] at h
    rcases hl : lastWith p rest with _ | r'
    · rw [hl] at h
      by_cases hp : p x
      · simp [hp] at h
        subst h
        exact ⟨List.mem_cons_self _ _, hp⟩
      · simp [hp] at h
    · rw [hl] at h
      cases h
      have := ih hl
      exact ⟨List.mem_cons_of_mem _ this.1, this.2⟩

theorem lastWith_eq_none {α : Type} (p : α → Bool) (xs : List α) :
    lastWith p xs = none ↔ ∀ x ∈ xs, p x = false := by
  induction xs with
  | nil => simp [lastWith]
  | cons x rest ih =>
    constructor
    · intro h y hy
      simp only [lastWith] at h
      rcases hl : lastWith p rest with _ | r
      · rw [hl] at h
        by_cases hp : p x
        · simp [hp] at h
        · rcases List.mem_cons.mp hy with rfl | hy
          · simpa using hp
          · exact (ih.mp hl) y hy
      · rw [hl] at h; cases h
    · intro hall
      simp only [lastWith]
      rw [ih.mpr (fun y hy => hall y (List.mem_cons_of_mem _ hy))]
      simp [hall x (List.mem_cons_self _ _)]

theorem lastWith_key_of_nodup {α : Type} (key : α → String) {xs : List α} {x : α}
    (hnd : (xs.map key).Nodup) (hx : x ∈ xs) :
    lastWith (fun y => decide (key y = key x)) xs = some x := by
  induction xs with
  | nil => cases hx
  | cons y rest ih =>
    simp only [List.map_cons, List.nodup_cons] at hnd
    rcases List.mem_cons.mp hx with rfl | hx
    · have hnone : lastWith (fun z => decide (key z = key x)) rest = none := by
        rw [lastWith_eq_none]
        intro z hz
        simp only [decide_eq_false_iff_not]
        intro hkey
        exact hnd.1 (List.mem_map.mpr ⟨z, hz, hkey⟩)
      simp [lastWith, hnone]
    · have := ih hnd.2 hx
      simp [lastWith, this]

theorem alookup_foldl_upsert {α β : Type} (key : α → String) (val : α → β)
    (xs : List α) : ∀ (acc : List (String × β)) (n : String),
    alookup (xs.foldl (fun m x => upsert m (key x) (val x)) acc) n =
      match lastWith (fun x => decide (key x = n)) xs with
      | some x => some (val x)
      | none => alookup acc n := by
  induction xs with
  | nil => intro acc n; rfl
  | cons x rest ih =>
    intro acc n
    simp only [List.foldl_cons, lastWith]
    rw [ih]
    rcases hl : lastWith (fun x => decide (key x = n)) rest with _ | r
    · by_cases hk : key x = n <;> simp [hk, alookup_upsert]
    · simp

theorem nodupKeys_foldl_upsert {α β : Type} (key : α → String) (val : α → β)
    (xs : List α) : ∀ (acc : List (String × β)), NodupKeys acc →
    NodupKeys (xs.foldl (fun m x => upsert m (key x) (val x)) acc) := by
  induction xs with
  | nil => intro acc h; exact h
  | cons x rest ih =>
    intro acc h
    exact ih _ (nodupKeys_upsert (key x) (val x) h)

theorem length_foldl_upsert {α β : Type} (key : α → String) (val : α → β)
    (xs : List α) : ∀ (acc : List (String × β)),
    (∀ x ∈ xs, alookup acc (key x) = none) → (xs.map key).Nodup →
    (xs.foldl (fun m x => upsert m (key x) (val x)) acc).length = acc.length + xs.length := by
  induction xs with
  | nil => intro acc _ _; rfl
  | cons x rest ih =>
    intro acc hfresh hnd
    simp only [List.map_cons, List.nodup_cons] at hnd
    simp only [List.foldl_cons]
    rw [ih _ ?_ hnd.2]
    · rw [length_upsert_of_alookup_none (val x) (hfresh x (List.mem_cons_self _ _))]
      simp only [List.length_cons]
      omega
    · intro y hy
      rw [alookup_upsert]
      have hne : key x ≠ key y := by
        intro hxy
        exact hnd.1 (List.mem_map.mpr ⟨y, hy, hxy.symm⟩)
      rw [if_neg hne]
      exact hfresh y (List.mem_cons_of_mem _ hy)

/-! ### Lemmas about the `markDeletedLocals` fold -/

theorem markStep_lookup_ne (m : Model) (acc : Bool × FMap) (p : String × File)
    (n : String) (hne : p.1 ≠ n) :
    alookup (markStep m acc p).2 n = alookup acc.2 n := by
  unfold markStep
  rcases alookup acc.2 p.1 with _ | w
  · by_cases hnew : (getOr m.global p.1).NewerThan p.2
    · simp [hnew]
    · by_cases hfl : p.2.Flags &&& FlagDeleted == 0 <;>
        simp [hnew, hfl, alookup_upsert, hne]
  · rfl

theorem markStep_bool_mono (m : Model) (acc : Bool × FMap) (p : String × File)
    (h : acc.1 = true) : (markStep m acc p).1 = true := by
  unfold markStep
  rcases alookup acc.2 p.1 with _ | w
  · by_cases hnew : (getOr m.global p.1).NewerThan p.2
    · simpa [hnew]
    · by_cases hfl : p.2.Flags &&& FlagDeleted == 0 <;> simp [hnew, hfl, h]
  · exact h

theorem markFold_bool_mono (m : Model) (es : List (String × File)) :
    ∀ (acc : Bool × FMap), acc.1 = true → (es.foldl (markStep m) acc).1 = true := by
  induction es with
  | nil => intro acc h; exact h
  | cons p rest ih =>
    intro acc h
    exact ih _ (markStep_bool_mono m acc p h)

theorem markFold_preserves_some (m : Model) (es : List (String × File)) :
    ∀ (acc : Bool × FMap) (n : String) (v : File), alookup acc.2 n = some v →
    alookup ((es.foldl (markStep m) acc).2) n = some v := by
  induction es with
  | nil => intro acc n v h; exact h
  | cons p rest ih =>
    intro acc n v h
    by_cases hpn : p.1 = n
    · have : (markStep m acc p).2 = acc.2 := by
        unfold markStep
        rw [hpn, h]
      exact ih _ n v (by rw [this]; exact h)
    · exact ih _ n v (by rw [markStep_lookup_ne m acc p n hpn]; exact h)

theorem markFold_none_of_no_key (m : Model) (es : List (String × File)) :
    ∀ (acc : Bool × FMap) (n : String), (∀ q ∈ es, q.1 ≠ n) →
    alookup acc.2 n = none → alookup ((es.foldl (markStep m) acc).2) n = none := by
  induction es with
  | nil => intro acc n _ h; exact h
  | cons p rest ih =>
    intro acc n hkeys h
    have hpn : p.1 ≠ n := hkeys p (List.mem_cons_self _ _)
    exact ih _ n (fun q hq => hkeys q (List.mem_cons_of_mem _ hq))
      (by rw [markStep_lookup_ne m acc p n hpn]; exact h)

theorem markFold_lookup (m : Model) (es : List (String × File)) :
    ∀ (n : String) (f : File) (acc : Bool × FMap), NodupKeys es →
    alookup es n = some f → alookup acc.2 n = none →
    alookup ((es.foldl (markStep m) acc).2) n =
      (if (getOr m.global n).NewerThan f then none
       else if f.Flags &&& FlagDeleted == 0 then some (tombstone f) else some f) := by
  induction es with
  | nil => intro n f acc _ hmem _; cases hmem
  | cons p rest ih =>
    intro n f acc hnd hmem hacc
    simp only [NodupKeys, List.map_cons, List.nodup_cons] at hnd
    by_cases hpn : p.1 = n
    · have hpf : p.2 = f := by
        simp [alookup, hpn] at hmem
        exact hmem
      have hstep : markStep m acc p =
          (if (getOr m.global n).NewerThan f then acc
           else if f.Flags &&& FlagDeleted == 0 then
             (true, upsert acc.2 n (tombstone f))
           else (acc.1, upsert acc.2 n f)) := by
        unfold markStep
        rw [hpn, hacc, hpf]
      have hrest : ∀ q ∈ rest, q.1 ≠ n := by
        intro q hq hqn
        exact hnd.1 (List.mem_map.mpr ⟨q, hq, by rw [hqn, hpn]⟩)
      by_cases hnew : (getOr m.global n).NewerThan f
      · rw [if_pos hnew]
        simp only [List.foldl_cons, hstep, if_pos hnew]
        exact markFold_none_of_no_key m rest acc n hrest hacc
      · rw [if_neg hnew]
        by_cases hfl : f.Flags &&& FlagDeleted == 0
        · rw [if_pos hfl]
          simp only [List.foldl_cons, hstep, if_neg hnew, if_pos hfl]
          exact markFold_preserves_some m rest _ n _ (by rw [alookup_upsert]; simp)
        · rw [if_neg hfl]
          simp only [List.foldl_cons, hstep, if_neg hnew, if_neg hfl]
          exact markFold_preserves_some m rest _ n _ (by rw [alookup_upsert]; simp)
    · have hmem' : alookup rest n = some f := by
        simpa [alookup, hpn] using hmem
      rw [List.foldl_cons]
      exact ih n f (markStep m acc p) hnd.2 hmem'
        (by rw [markStep_lookup_ne m acc p n hpn]; exact hacc)

theorem markFold_bool_true (m : Model) (es : List (String × File)) :
    ∀ (n : String) (f : File) (acc : Bool × FMap),
    alookup es n = some f → alookup acc.2 n = none →
    (getOr m.global n).NewerThan f = false → (f.Flags &&& FlagDeleted == 0) = true →
    (es.foldl (markStep m) acc).1 = true := by
  induction es with
  | nil => intro n f acc hmem _ _ _; cases hmem
  | cons p rest ih =>
    intro n f acc hmem hacc hnew hfl
    by_cases hpn : p.1 = n
    · have hpf : p.2 = f := by
        simp [alookup, hpn] at hmem
        exact hmem
      have hstep : (markStep m acc p).1 = true := by
        unfold markStep
        rw [hpn, hacc, hpf, hnew]
        simp [hfl]
      exact markFold_bool_mono m rest _ hstep
    · have hmem' : alookup rest n = some f := by
        simpa [alookup, hpn] using hmem
      exact ih n f (markStep m acc p) hmem'
        (by rw [markStep_lookup_ne m acc p n hpn]; exact hacc) hnew hfl

theorem markFold_skip_all (m : Model) (es : List (String × File)) :
    ∀ (acc : Bool × FMap), (∀ q ∈ es, (alookup acc.2 q.1).isSome) →
    es.foldl (markStep m) acc = acc := by
  induction es with
  | nil => intro acc _; rfl
  | cons p rest ih =>
    intro acc hall
    have hp := hall p (List.mem_cons_self _ _)
    have hstep : markStep m acc p = acc := by
      unfold markStep
      rcases hlp : alookup acc.2 p.1 with _ | w
      · rw [hlp] at hp; cases hp
      · rfl
    rw [List.foldl_cons, hstep]
    exact ih acc (fun q hq => hall q (List.mem_cons_of_mem _ hq))

/-! ### Plumbing lemmas about the recomputation wrappers -/

theorem recomputeGlobal_local (m : Model) (now : Int) :
    (m.recomputeGlobal now).«local» = m.«local» := by
  unfold Model.recomputeGlobal
  split <;> rfl

theorem recomputeGlobal_remote (m : Model) (now : Int) :
    (m.recomputeGlobal now).remote = m.remote := by
  unfold Model.recomputeGlobal
  split <;> rfl

theorem recomputeNeed_local (m : Model) : (m.recomputeNeed).«local» = m.«local» := rfl

theorem recomputeNeed_global (m : Model) : (m.recomputeNeed).global = m.global := rfl

theorem recomputeNeed_remote (m : Model) : (m.recomputeNeed).remote = m.remote := rfl

theorem computeGlobal_of_remote_nil (m : Model) (h : m.remote = []) :
    computeGlobal m = m.«local» := by
  unfold computeGlobal
  rw [h]
  rfl

theorem globalUpdated_of_length_ne {newG oldG : FMap} (h : newG.length ≠ oldG.length) :
    globalUpdated newG oldG = true := by
  unfold globalUpdated
  simp [h]

theorem globalUpdated_of_entry {newG oldG : FMap} {p : String × File} {f1 : File}
    (hp : p ∈ newG) (hf1 : alookup oldG p.1 = some f1) (hne : p.2.Equals f1 = false) :
    globalUpdated newG oldG = true := by
  unfold globalUpdated
  rw [Bool.or_eq_true]
  right
  rw [List.any_eq_true]
  refine ⟨p, hp, ?_⟩
  rw [hf1]
  show (!p.2.Equals f1) = true
  rw [hne]
  rfl

theorem globalUpdated_false_elim {newG oldG : FMap}
    (h : globalUpdated newG oldG = false) :
    newG.length = oldG.length ∧
      ∀ p ∈ newG, ∃ f1, alookup oldG p.1 = some f1 ∧ p.2.Equals f1 = true := by
  unfold globalUpdated at h
  rw [Bool.or_eq_false_iff] at h
  constructor
  · have := h.1
    simpa using this
  · intro p hp
    have hthis := (List.any_eq_false.mp h.2) p hp
    rcases hf : alookup oldG p.1 with _ | f1
    · rw [hf] at hthis
      exact absurd rfl hthis
    · rw [hf] at hthis
      have h2 : (!p.2.Equals f1) ≠ true := hthis
      rcases hEq : p.2.Equals f1 with _ | _
      · exact absurd (by rw [hEq]; rfl) h2
      · exact ⟨f1, rfl, hEq⟩

theorem alookup_isSome_of_globalUpdated_false {newG oldG : FMap}
    (hndN : NodupKeys newG) (h : globalUpdated newG oldG = false) (n : String)
    (hn : (alookup oldG n).isSome = true) : (alookup newG n).isSome = true := by
  have hlen := (globalUpdated_false_elim h).1
  have hsub : (newG.map Prod.fst) ⊆ (oldG.map Prod.fst) := by
    intro k hk
    have hks := alookup_isSome_of_mem_keys hk
    rcases hsor : alookup newG k with _ | v
    · rw [hsor] at hks; cases hks
    · obtain ⟨f1, hf1, _⟩ := (globalUpdated_false_elim h).2 (k, v) (alookup_some_mem hsor)
      exact mem_keys_of_alookup_isSome (by rw [hf1]; rfl)
  have hperm : List.Perm (newG.map Prod.fst) (oldG.map Prod.fst) := by
    refine (hndN.subperm hsub).perm_of_length_le ?_
    simp [hlen]
  exact alookup_isSome_of_mem_keys (hperm.mem_iff.mpr (mem_keys_of_alookup_isSome hn))

/-- `ReplaceLocal` with its lets flattened (definitional). -/
theorem ReplaceLocal_eq (m : Model) (fs : List File) (now : Int) :
    m.ReplaceLocal fs now =
      (if fs.any (fun f => !(getOr m.«local» f.Name).Equals f) ||
          (m.markDeletedLocals (fs.foldl (fun nl (f : File) => upsert nl f.Name f) [])).1 ||
          decide ((m.markDeletedLocals
            (fs.foldl (fun nl (f : File) => upsert nl f.Name f) [])).2.length ≠
              m.«local».length) then
        { (({ m with «local» := (m.markDeletedLocals
              (fs.foldl (fun nl (f : File) => upsert nl f.Name f) [])).2 }).recomputeGlobal
                now).recomputeNeed with
            updatedLocal := now, lastIdxBcastRequest := now }
      else m) := rfl

theorem version_bump_ne (v : Nat) : (v + 1) % uint32Mod ≠ v := by
  unfold uint32Mod
  rcases Nat.lt_or_ge (v + 1) 4294967296 with h | h
  · rw [Nat.mod_eq_of_lt h]
    omega
  · have := Nat.mod_lt (v + 1) (show 0 < 4294967296 by norm_num)
    omega

theorem tombstone_not_equals (f : File) : (tombstone f).Equals f = false := by
  unfold tombstone File.Equals
  simp only [decide_eq_false_iff_not]
  intro h
  exact version_bump_ne f.Version h.2

theorem needFilter_nil (m : Model) (h : m.global = m.«local») (hnd : NodupKeys m.«local») :
    (m.global.filter (fun p => needCond m p.1 p.2)).map Prod.fst = ([] : List String) := by
  have hfil : m.global.filter (fun p => needCond m p.1 p.2) = [] := by
    rw [List.filter_eq_nil]
    intro p hp
    rw [h] at hp
    have hl : alookup m.«local» p.1 = some p.2 :=
      alookup_of_mem_nodupKeys hnd (by rwa [Prod.mk.eta])
    unfold needCond
    rw [hl]
    simp [File.newerThan_irrefl]
  rw [hfil]
  rfl

/-- Committing a new local map in a model with no remotes publishes it as the
new global and empties the need set. -/
theorem commit_local_only (m : Model) (L' : FMap) (now : Int)
    (hrem : m.remote = []) (hnd : NodupKeys L')
    (hchanged : globalUpdated L' m.global = true) :
    (({ m with «local» := L' }).recomputeGlobal now).recomputeNeed =
      ⟨L', L', m.remote, [], m.delete, m.updatedLocal, now, m.lastIdxBcastRequest⟩ := by
  have hcg : computeGlobal { m with «local» := L' } = L' :=
    computeGlobal_of_remote_nil _ (by simpa using hrem)
  have hcond : globalUpdated (computeGlobal { m with «local» := L' })
      ({ m with «local» := L' }).global = true := by
    rw [hcg]
    exact hchanged
  have hrg : ({ m with «local» := L' }).recomputeGlobal now =
      { m with «local» := L', global := L', updateGlobal := now } := by
    unfold Model.recomputeGlobal
    rw [if_pos hcond, hcg]
  rw [hrg]
  unfold Model.recomputeNeed
  rw [needFilter_nil _ rfl hnd, hrem]

/-! ### Claim C6: the suppression law -/

/-- Claim C6: for every `(lastChange, count)` pair, `shouldSuppressChange`
admits (returns `false`) when `now - lastChange` exceeds 600 seconds; else
suppresses (returns `true`) when `now - lastChange` is less than
`(count + 2) * 60` seconds; else admits. -/
theorem shouldSuppressChange_law (now lastChange numChanges : Int) :
    (now - lastChange > 600 * nsPerSecond →
      shouldSuppressChange now lastChange numChanges = false) ∧
    (now - lastChange ≤ 600 * nsPerSecond →
      now - lastChange < (numChanges + 2) * (60 * nsPerSecond) →
      shouldSuppressChange now lastChange numChanges = true) ∧
    (now - lastChange ≤ 600 * nsPerSecond →
      ¬ now - lastChange < (numChanges + 2) * (60 * nsPerSecond) →
      shouldSuppressChange now lastChange numChanges = false) := by
  simp only [shouldSuppressChange, maxFileHoldTimeS, minFileHoldTimeS, nsPerSecond]
  refine ⟨fun h1 => ?_, fun h1 h2 => ?_, fun h1 h2 => ?_⟩ <;>
    split_ifs with ha hb <;> first | rfl | omega

/-- Claim C6 witness: at `now - lastChange = 90` seconds with one prior
suppression, the change is suppressed; the three branch hypotheses are
dischargeable concretely. -/
theorem shouldSuppressChange_law_witness :
    shouldSuppressChange 90000000000 0 1 = true :=
  (shouldSuppressChange_law 90000000000 0 1).2.1 (by decide) (by decide)

/-! ### Claim C10: `updateLocal` is a no-op when an `Equals` record exists -/

/-- Claim C10: if `local` already holds a record for `f.Name` with the same
`(modified, version)` pair as `f`, `updateLocal f` leaves the entire model
state unchanged, even when `f` differs in flags or blocks. -/
theorem updateLocal_noop_of_equals (m : Model) (f : File) (now : Int) (ef : File)
    (hef : alookup m.«local» f.Name = some ef) (heq : ef.Equals f = true) :
    m.updateLocal f now = m := by
  unfold Model.updateLocal
  rw [hef]
  simp [heq]

/-- Claim C10 witness: the stored record and the update differ in flags and
block list but share `(modified, version)`; the state is unchanged. -/
def c10Stored : File := ⟨"a", 0, 5, 1, [⟨0, 3, [9]⟩]⟩

def c10Update : File := ⟨"a", 7, 5, 1, []⟩

def c10Model : Model := ⟨[("a", c10Stored)], [("a", c10Stored)], [], [], false, 1, 1, 1⟩

theorem updateLocal_noop_of_equals_witness :
    c10Model.updateLocal c10Update 9 = c10Model :=
  updateLocal_noop_of_equals c10Model c10Update 9 c10Stored (by decide) (by decide)

/-! ### Claim C4: the `Request` guards -/

/-- Claim C4: `Request` returns `ErrNoSuchFile` (and no data) whenever the
name is not a key of both `local` and `global` — in particular for any
unindexed peer-supplied path-traversal name — and returns `ErrInvalid` (and
no data) when the name is indexed but the local record carries the INVALID
flag. -/
theorem Request_guards (m : Model) (nodeID name : String) (offset size : Nat)
    (hash : List Nat) :
    ((alookup m.«local» name = none ∨ alookup m.global name = none) →
      m.Request nodeID name offset size hash = RequestResult.noSuchFile) ∧
    (∀ lf, alookup m.«local» name = some lf → (alookup m.global name).isSome = true →
      lf.Flags &&& FlagInvalid ≠ 0 →
      m.Request nodeID name offset size hash = RequestResult.invalid) := by
  constructor
  · intro h
    unfold Model.Request
    rcases hl : alookup m.«local» name with _ | lf
    · rfl
    · rcases hg : alookup m.global name with _ | gf
      · rfl
      · rcases h with h | h
        · rw [hl] at h; cases h
        · rw [hg] at h; cases h
  · intro lf hl hg hinv
    unfold Model.Request
    rw [hl]
    rcases hgl : alookup m.global name with _ | gf
    · rw [hgl] at hg; cases hg
    · show (if lf.Flags &&& FlagInvalid != 0 then RequestResult.invalid
        else RequestResult.diskRead name offset size) = RequestResult.invalid
      simp [hinv]

/-- Claim C4 witness: the traversal name `"../escape"` is rejected with
`noSuchFile`, and an indexed INVALID record is rejected with `invalid`. -/
def c4Invalid : File := ⟨"inv", 8192, 5, 1, []⟩

def c4Model : Model := ⟨[("inv", c4Invalid)], [("inv", c4Invalid)], [], [], false, 1, 1, 1⟩

theorem Request_guards_witness :
    c4Model.Request "peer" "../escape" 0 6 [] = RequestResult.noSuchFile ∧
    c4Model.Request "peer" "inv" 0 1 [] = RequestResult.invalid :=
  ⟨(Request_guards c4Model "peer" "../escape" 0 6 []).1 (Or.inl (by decide)),
   (Request_guards c4Model "peer" "inv" 0 1 []).2 c4Invalid (by decide) (by decide)
     (by decide)⟩

/-! ### Claim C9: the walker round trip -/

/-- The prefix-sum regeneration of block offsets performed by
`fileFromFileInfo`, as a standalone recursion (`uint64` arithmetic). -/
def prefixBlocks (off : Nat) : List BlockInfo → List Block
  | [] => []
  | b :: rest => ⟨off, b.Length, b.Hash⟩ :: prefixBlocks ((off + b.Length) % uint64Mod) rest

theorem foldl_blocks_eq_prefixBlocks (bs : List BlockInfo) :
    ∀ (init : List Block) (off : Nat),
    (bs.foldl (fun (acc : List Block × Nat) b =>
        (acc.1 ++ [⟨acc.2, b.Length, b.Hash⟩], (acc.2 + b.Length) % uint64Mod))
      (init, off)).1 = init ++ prefixBlocks off bs := by
  induction bs with
  | nil => intro init off; simp [prefixBlocks]
  | cons b rest ih =>
    intro init off
    rw [List.foldl_cons]
    show (rest.foldl (fun (acc : List Block × Nat) b =>
        (acc.1 ++ [⟨acc.2, b.Length, b.Hash⟩], (acc.2 + b.Length) % uint64Mod))
      (init ++ [(⟨off, b.Length, b.Hash⟩ : Block)], (off + b.Length) % uint64Mod)).1 =
      init ++ prefixBlocks off (b :: rest)
    rw [ih]
    simp [prefixBlocks]

theorem fileFromFileInfo_blocks (f : FileInfo) :
    fileFromFileInfo f = ⟨f.Name, f.Flags, f.Modified, f.Version, prefixBlocks 0 f.Blocks⟩ := by
  have h := foldl_blocks_eq_prefixBlocks f.Blocks [] 0
  simp only [List.nil_append] at h
  exact congrArg (fun bs => File.mk f.Name f.Flags f.Modified f.Version bs) h

/-- Claim C9: for a `File` whose block offsets are the (`uint64`) prefix sums
of its block lengths, the round trip through `fileInfoFromFile` and
`fileFromFileInfo` is the identity: name, flags, modified, version and each
block's length and hash are preserved, and the offsets are regenerated as the
prefix sums of the lengths. -/
theorem fileInfo_roundtrip (f : File)
    (h : f.Blocks = prefixBlocks 0 (f.Blocks.map (fun b => ⟨b.Length, b.Hash⟩))) :
    fileFromFileInfo (fileInfoFromFile f) = f := by
  rw [show fileInfoFromFile f =
    ⟨f.Name, f.Flags, f.Modified, f.Version, f.Blocks.map (fun b => ⟨b.Length, b.Hash⟩)⟩
      from rfl]
  rw [fileFromFileInfo_blocks]
  rw [← h]

/-- Claim C9 witness: a two-block file with offsets `0` and `3` round trips
exactly. -/
def c9File : File := ⟨"x", 7, 9, 2, [⟨0, 3, [1]⟩, ⟨3, 5, [2]⟩]⟩

theorem fileInfo_roundtrip_witness :
    fileFromFileInfo (fileInfoFromFile c9File) = c9File :=
  fileInfo_roundtrip c9File (by decide)

/-! ### Claim C2: the need-set invariant -/

/-- Claim C2: after `recomputeNeed`, every name in `need` satisfies: the
global record is `NewerThan` the local record (a name absent from `local`
counts as older than everything), the global record does not have the
INVALID flag, and if it has the DELETED flag then deletion is enabled and
the name is present in `local`. -/
theorem recomputeNeed_invariant (m : Model) (hg : NodupKeys m.global) :
    ∀ n ∈ (m.recomputeNeed).need, ∃ gf, alookup m.global n = some gf ∧
      (alookup m.«local» n = none ∨
        ∃ lf, alookup m.«local» n = some lf ∧ gf.NewerThan lf = true) ∧
      gf.Flags &&& FlagInvalid = 0 ∧
      (gf.Flags &&& FlagDeleted ≠ 0 →
        m.delete = true ∧ ∃ lf, alookup m.«local» n = some lf) := by
  intro n hn
  unfold Model.recomputeNeed at hn
  simp only at hn
  rcases List.mem_map.mp hn with ⟨p, hpmem, hpfst⟩
  rcases List.mem_filter.mp hpmem with ⟨hpin, hpcond⟩
  subst hpfst
  refine ⟨p.2, alookup_of_mem_nodupKeys hg (by rwa [Prod.mk.eta]), ?_⟩
  unfold needCond at hpcond
  rcases hll : alookup m.«local» p.1 with _ | lf
  · rw [hll] at hpcond
    simp only [Bool.and_eq_true, Bool.or_eq_true, beq_iff_eq, Option.isSome_none,
      Bool.false_eq_true, or_false] at hpcond
    refine ⟨Or.inl rfl, hpcond.1.1.2, ?_⟩
    intro hdel
    exact absurd hpcond.2 hdel
  · rw [hll] at hpcond
    simp only [Bool.and_eq_true, Bool.or_eq_true, beq_iff_eq] at hpcond
    refine ⟨Or.inr ⟨lf, rfl, hpcond.1.1.1⟩, hpcond.1.1.2, ?_⟩
    intro hdel
    rcases hpcond.1.2 with h | h
    · exact absurd h hdel
    · exact ⟨h, lf, rfl⟩

/-- Claim C2 witness: a model whose recomputed need set contains a name; the
invariant instantiates to it. -/
def c2Gf : File := ⟨"a", 0, 9, 0, []⟩

def c2Model : Model := ⟨[], [("a", c2Gf)], [], [], false, 1, 1, 1⟩

theorem recomputeNeed_invariant_witness :
    ∃ gf, alookup c2Model.global "a" = some gf ∧
      (alookup c2Model.«local» "a" = none ∨
        ∃ lf, alookup c2Model.«local» "a" = some lf ∧ gf.NewerThan lf = true) ∧
      gf.Flags &&& FlagInvalid = 0 ∧
      (gf.Flags &&& FlagDeleted ≠ 0 →
        c2Model.delete = true ∧ ∃ lf, alookup c2Model.«local» "a" = some lf) :=
  recomputeNeed_invariant c2Model (by decide) "a" (by decide)

/-! ### Claim C5: Generation is not strictly monotone (code bug) -/

/-- Two fresh files inserted by `updateLocal` during the same epoch second. -/
def c5FileB : File := ⟨"b", 0, 1, 0, []⟩

def c5FileA : File := ⟨"a", 0, 2, 0, []⟩

/-- Claim C5 is violated by the code: the second `updateLocal` in the same
epoch second changes `local`, `global` and `need` — all externally
observable — yet `Generation` (the sum of the two second-resolution
timestamps, both already equal to `now`) does not increase, contradicting
`Generation`'s own documented guarantee of incrementing on every change. -/
theorem Generation_not_strictly_monotone :
    ((emptyModel.updateLocal c5FileB 5).updateLocal c5FileA 5).«local» ≠
        (emptyModel.updateLocal c5FileB 5).«local» ∧
    ((emptyModel.updateLocal c5FileB 5).updateLocal c5FileA 5).global ≠
        (emptyModel.updateLocal c5FileB 5).global ∧
    ((emptyModel.updateLocal c5FileB 5).updateLocal c5FileA 5).Generation =
        (emptyModel.updateLocal c5FileB 5).Generation := by
  refine ⟨by decide, by decide, by decide⟩

/-! ### Claim C7: `Index` replaces the peer's map wholesale -/

theorem alookup_buildRemote (fs : List FileInfo) (n : String) :
    alookup (buildRemote fs) n =
      Option.map fileFromFileInfo (lastWith (fun g => decide (g.Name = n)) fs) := by
  have h := alookup_foldl_upsert (fun g : FileInfo => g.Name) fileFromFileInfo fs [] n
  rcases hl : lastWith (fun g : FileInfo => decide (g.Name = n)) fs with _ | g <;>
    rw [hl] at h <;> exact h

/-- Claim C7: `Index(peer, files)` replaces `remote[peer]` wholesale with
exactly the provided list — every element's name is present and bound to an
element of that name (the last, under Go map overwrite), nothing else is in
the map, and under distinct names there is exactly one entry per element —
and then recomputes `global` and `need`. -/
theorem Index_replaces_wholesale (m : Model) (peer : String) (fs : List FileInfo)
    (now : Int) :
    alookup (m.Index peer fs now).remote peer = some (buildRemote fs) ∧
    (∀ g ∈ fs, ∃ g', g' ∈ fs ∧ g'.Name = g.Name ∧
      alookup (buildRemote fs) g.Name = some (fileFromFileInfo g')) ∧
    (∀ n v, alookup (buildRemote fs) n = some v →
      ∃ g, g ∈ fs ∧ g.Name = n ∧ v = fileFromFileInfo g) ∧
    ((fs.map FileInfo.Name).Nodup →
      (buildRemote fs).length = fs.length ∧
      ∀ g ∈ fs, alookup (buildRemote fs) g.Name = some (fileFromFileInfo g)) ∧
    m.Index peer fs now =
      (({ m with remote := upsert m.remote peer (buildRemote fs) }).recomputeGlobal
        now).recomputeNeed := by
  refine ⟨?_, ?_, ?_, ?_, rfl⟩
  · unfold Model.Index
    rw [recomputeNeed_remote, recomputeGlobal_remote]
    show alookup (upsert m.remote peer (buildRemote fs)) peer = some (buildRemote fs)
    rw [alookup_upsert]
    simp
  · intro g hg
    rcases hlast : lastWith (fun x => decide (x.Name = g.Name)) fs with _ | g'
    · exfalso
      have := (lastWith_eq_none _ fs).mp hlast g hg
      simp at this
    · have hm := lastWith_some_mem hlast
      refine ⟨g', hm.1, by simpa using hm.2, ?_⟩
      rw [alookup_buildRemote, hlast]
      simp
  · intro n v hv
    rw [alookup_buildRemote] at hv
    rcases hlast : lastWith (fun g => decide (g.Name = n)) fs with _ | g
    · rw [hlast] at hv
      exact Option.noConfusion hv
    · rw [hlast] at hv
      have hv2 : fileFromFileInfo g = v := Option.some_inj.mp hv
      have hm := lastWith_some_mem hlast
      exact ⟨g, hm.1, by simpa using hm.2, hv2.symm⟩
  · intro hnd
    constructor
    · have := length_foldl_upsert (fun g : FileInfo => g.Name) fileFromFileInfo fs []
        (fun x _ => rfl) hnd
      simpa using this
    · intro g hg
      rw [alookup_buildRemote, lastWith_key_of_nodup FileInfo.Name hnd hg]
      simp

/-- Claim C7 witness: a one-element index from a fresh model. -/
def c7Info : FileInfo := ⟨"a", 0, 1, 0, []⟩

theorem Index_replaces_wholesale_witness :
    alookup (emptyModel.Index "p" [c7Info] 2).remote "p" = some (buildRemote [c7Info]) ∧
    alookup (buildRemote [c7Info]) "a" = some (fileFromFileInfo c7Info) :=
  ⟨(Index_replaces_wholesale emptyModel "p" [c7Info] 2).1,
   ((Index_replaces_wholesale emptyModel "p" [c7Info] 2).2.2.2.1 (by decide)).2
     c7Info (by decide)⟩

/-! ### Claim C1: `recomputeGlobal` and the NewerThan-maximum -/

theorem computeGlobal_lookup_max (m : Model) (n : String) (g : File)
    (hg : alookup (computeGlobal m) n = some g) :
    g ∈ candidates m n ∧
    (∀ d ∈ candidates m n, d.NewerThan g = false) ∧
    (∀ lf, alookup m.«local» n = some lf →
      (∀ d ∈ remoteRecords m n, d.NewerThan lf = false) → g = lf) := by
  have hchar : (remoteRecords m n).foldl pickNewer (alookup m.«local» n) = some g :=
    (alookup_computeGlobal m n).symm.trans hg
  have hmax := foldl_pickNewer_max (remoteRecords m n) (alookup m.«local» n) g hchar
  have hmem := foldl_pickNewer_mem (remoteRecords m n) (alookup m.«local» n) g hchar
  refine ⟨?_, ?_, ?_⟩
  · unfold candidates
    rcases hmem with h | h
    · rw [h]; simp
    · simp [h]
  · intro d hd
    unfold candidates at hd
    rcases List.mem_append.mp hd with hdl | hdr
    · rcases hc : alookup m.«local» n with _ | lf
      · rw [hc] at hdl; simp at hdl
      · rw [hc] at hdl
        simp at hdl
        subst hdl
        exact hmax.1 d hc
    · exact hmax.2 d hdr
  · intro lf hlf hnone
    rw [hlf] at hchar
    rw [foldl_pickNewer_keep _ lf hnone] at hchar
    exact (Option.some_inj.mp hchar).symm

/-- Claim C1 counterexample: starting from a reachable state (two `SeedLocal`
calls whose records share `(modified, version)` but differ in blocks — the
second one suppresses publication because the rebuilt map is pointwise
`Equals` the old one), `recomputeGlobal` leaves the stale record in `global`:
the unique candidate (hence the NewerThan-maximum, the local record itself)
is `c1F1`, yet `global["a"]` is `c1F2 ≠ c1F1`. -/
def c1F1 : File := ⟨"a", 0, 1, 1, [⟨0, 3, [7]⟩]⟩

def c1F2 : File := ⟨"a", 0, 1, 1, []⟩

def c1Pre : Model := ⟨[("a", c1F1)], [("a", c1F2)], [], [], false, 3, 3, 3⟩

theorem recomputeGlobal_not_exact_cex :
    alookup ((c1Pre.recomputeGlobal 4).global) "a" = some c1F2 ∧
    candidates c1Pre "a" = [c1F1] ∧
    c1F2 ≠ c1F1 ∧
    c1F1.NewerThan c1F2 = false ∧ c1F2.NewerThan c1F1 = false := by
  refine ⟨by decide, by decide, by decide, by decide, by decide⟩

/-- Claim C1 (amended): after `recomputeGlobal`, every record of `global` has
the same `(modified, version)` pair (`Equals`) as some candidate from
`{local[name]} ∪ {remote[p][name]}`, and no candidate is strictly `NewerThan`
it; when the recomputation detects a change and publishes the rebuilt map,
the record is exactly such a maximal candidate — in particular exactly the
local record when the name is in `local` and no remote record is strictly
`NewerThan` it (a remote record replaces the incumbent only when strictly
`NewerThan`). -/
theorem recomputeGlobal_max (m : Model) (now : Int) (hl : NodupKeys m.«local»)
    (n : String) (g : File)
    (hlook : alookup (m.recomputeGlobal now).global n = some g) :
    (∃ c ∈ candidates m n, c.Equals g = true ∧
      ∀ d ∈ candidates m n, d.NewerThan g = false) ∧
    (globalUpdated (computeGlobal m) m.global = true →
      g ∈ candidates m n ∧
      ∀ lf, alookup m.«local» n = some lf →
        (∀ d ∈ remoteRecords m n, d.NewerThan lf = false) → g = lf) := by
  unfold Model.recomputeGlobal at hlook
  by_cases hupd : globalUpdated (computeGlobal m) m.global = true
  · rw [if_pos hupd] at hlook
    have hcm : alookup (computeGlobal m) n = some g := hlook
    obtain ⟨hgmem, hmax, hexact⟩ := computeGlobal_lookup_max m n g hcm
    exact ⟨⟨g, hgmem, File.equals_refl g, hmax⟩, fun _ => ⟨hgmem, hexact⟩⟩
  · rw [if_neg hupd] at hlook
    have hupd2 : globalUpdated (computeGlobal m) m.global = false := by
      rcases h : globalUpdated (computeGlobal m) m.global with _ | _
      · rfl
      · exact absurd h hupd
    have hndN := nodupKeys_computeGlobal m hl
    have hsomeN : (alookup (computeGlobal m) n).isSome = true :=
      alookup_isSome_of_globalUpdated_false hndN hupd2 n (by rw [hlook]; rfl)
    obtain ⟨gN, hgN⟩ := Option.isSome_iff_exists.mp hsomeN
    obtain ⟨hgmem, hmax, _⟩ := computeGlobal_lookup_max m n gN hgN
    obtain ⟨f1, hf1, heqv0⟩ :=
      (globalUpdated_false_elim hupd2).2 (n, gN) (alookup_some_mem hgN)
    have hf1g : f1 = g := by
      rw [hlook] at hf1
      exact (Option.some_inj.mp hf1).symm
    have heqv : gN.Equals g = true := by
      rw [← hf1g]
      exact heqv0
    refine ⟨⟨gN, hgmem, heqv, ?_⟩, fun ht => absurd ht hupd⟩
    intro d hd
    rw [← File.newerThan_congr_right heqv]
    exact hmax d hd

/-- Claim C1 (amended) witness: a model with one local and one strictly newer
remote record, where the recomputation publishes; the global record is the
remote one, the maximum of the candidates. -/
def c1WitLocal : File := ⟨"a", 0, 5, 0, []⟩

def c1WitRem : File := ⟨"a", 0, 9, 0, []⟩

def c1WitModel : Model :=
  ⟨[("a", c1WitLocal)], [], [("p", [("a", c1WitRem)])], [], false, 0, 0, 0⟩

theorem recomputeGlobal_max_witness :
    (∃ c ∈ candidates c1WitModel "a", c.Equals c1WitRem = true ∧
      ∀ d ∈ candidates c1WitModel "a", d.NewerThan c1WitRem = false) ∧
    (globalUpdated (computeGlobal c1WitModel) c1WitModel.global = true →
      c1WitRem ∈ candidates c1WitModel "a" ∧
      ∀ lf, alookup c1WitModel.«local» "a" = some lf →
        (∀ d ∈ remoteRecords c1WitModel "a", d.NewerThan lf = false) →
          c1WitRem = lf) :=
  recomputeGlobal_max c1WitModel 3 (by decide) "a" c1WitRem (by decide)

/-! ### Claim C3: tombstoning by `ReplaceLocal` -/

theorem alookup_buildLocalMap (fs : List File) (n : String) :
    alookup (fs.foldl (fun nl (f : File) => upsert nl f.Name f) []) n =
      lastWith (fun g => decide (g.Name = n)) fs := by
  have h := alookup_foldl_upsert (fun g : File => g.Name) id fs [] n
  rcases hl : lastWith (fun g : File => decide (g.Name = n)) fs with _ | g <;>
    rw [hl] at h <;> exact h

theorem commit_local (m' : Model) (now : Int) :
    ({ (m'.recomputeGlobal now).recomputeNeed with
        updatedLocal := now, lastIdxBcastRequest := now }).«local» = m'.«local» := by
  show ((m'.recomputeGlobal now).recomputeNeed).«local» = m'.«local»
  rw [recomputeNeed_local, recomputeGlobal_local]

/-- Claim C3 counterexample: when the old local record is already a DELETED
tombstone, `ReplaceLocal` of a list omitting the name carries it over
unchanged — the version stays 1 and is not incremented to 2, although the
global record is not `NewerThan` the old local record. -/
def c3Tomb : File := ⟨"a", 4096, 10, 1, []⟩

def c3Pre : Model := ⟨[("a", c3Tomb)], [("a", c3Tomb)], [], [], false, 1, 1, 1⟩

theorem replaceLocal_version_cex :
    alookup c3Pre.«local» "a" = some c3Tomb ∧
    (getOr c3Pre.global "a").NewerThan c3Tomb = false ∧
    alookup ((c3Pre.ReplaceLocal [] 5).«local») "a" = some c3Tomb ∧
    c3Tomb.Version = 1 ∧ c3Tomb.Flags &&& FlagDeleted ≠ 0 := by
  refine ⟨by decide, by decide, by decide, by decide, by decide⟩

/-- Claim C3 (amended): for every `ReplaceLocal(fs)` call and name present in
the old local map but absent from `fs`: if the current global record is not
`NewerThan` the old local record, the new local map contains a tombstone for
the name — when the old record was not already DELETED it is the old record
with flags set to DELETED, version incremented (`uint32`), and blocks
cleared; when it was already DELETED it is carried over unchanged.
Otherwise (global strictly newer) the name is absent from the committed
local map — unless the call detects no change at all, in which case the
whole model is left untouched. -/
theorem ReplaceLocal_removed_names (m : Model) (fs : List File) (now : Int)
    (n : String) (f : File) (hnd : NodupKeys m.«local»)
    (hold : alookup m.«local» n = some f)
    (hmiss : ∀ g ∈ fs, g.Name ≠ n) :
    ((getOr m.global n).NewerThan f = false →
      (f.Flags &&& FlagDeleted = 0 →
        alookup (m.ReplaceLocal fs now).«local» n = some (tombstone f)) ∧
      (f.Flags &&& FlagDeleted ≠ 0 →
        alookup (m.ReplaceLocal fs now).«local» n = some f)) ∧
    ((getOr m.global n).NewerThan f = true →
      (alookup (m.ReplaceLocal fs now).«local» n = none ∨
        m.ReplaceLocal fs now = m)) := by
  have hbase : alookup (fs.foldl (fun nl (f : File) => upsert nl f.Name f) []) n = none := by
    rw [alookup_buildLocalMap, lastWith_eq_none]
    intro g hg
    simp [hmiss g hg]
  have hmd := markFold_lookup m m.«local» n f
    (false, fs.foldl (fun nl (f : File) => upsert nl f.Name f) []) hnd hold hbase
  have hmd2 : alookup
      (m.markDeletedLocals (fs.foldl (fun nl (f : File) => upsert nl f.Name f) [])).2 n =
      (if (getOr m.global n).NewerThan f then none
       else if f.Flags &&& FlagDeleted == 0 then some (tombstone f) else some f) := hmd
  rw [ReplaceLocal_eq]
  constructor
  · intro hnew
    constructor
    · intro hfl
      have hflb : (f.Flags &&& FlagDeleted == 0) = true := by simp [hfl]
      rw [hnew, hflb] at hmd2
      simp only [Bool.false_eq_true, if_false, if_true] at hmd2
      have hbool := markFold_bool_true m m.«local» n f
        (false, fs.foldl (fun nl (f : File) => upsert nl f.Name f) []) hold hbase hnew hflb
      have hbool2 : (m.markDeletedLocals
          (fs.foldl (fun nl (f : File) => upsert nl f.Name f) [])).1 = true := hbool
      rw [hbool2]
      rw [if_pos (by simp)]
      rw [commit_local]
      exact hmd2
    · intro hfl
      have hflb : (f.Flags &&& FlagDeleted == 0) = false := by simp [hfl]
      rw [hnew, hflb] at hmd2
      simp only [Bool.false_eq_true, if_false] at hmd2
      by_cases hcond : (fs.any (fun f => !(getOr m.«local» f.Name).Equals f) ||
          (m.markDeletedLocals (fs.foldl (fun nl (f : File) => upsert nl f.Name f) [])).1 ||
          decide ((m.markDeletedLocals
            (fs.foldl (fun nl (f : File) => upsert nl f.Name f) [])).2.length ≠
              m.«local».length)) = true
      · rw [if_pos hcond, commit_local]
        exact hmd2
      · rw [if_neg hcond]
        exact hold
  · intro hnew
    rw [hnew] at hmd2
    simp only [if_true] at hmd2
    by_cases hcond : (fs.any (fun f => !(getOr m.«local» f.Name).Equals f) ||
        (m.markDeletedLocals (fs.foldl (fun nl (f : File) => upsert nl f.Name f) [])).1 ||
        decide ((m.markDeletedLocals
          (fs.foldl (fun nl (f : File) => upsert nl f.Name f) [])).2.length ≠
            m.«local».length)) = true
    · left
      rw [if_pos hcond, commit_local]
      exact hmd2
    · right
      rw [if_neg hcond]

/-- Claim C3 (amended) witness: a two-file local map where `fs` keeps one
file and omits the other; the omitted one gets a tombstone with the version
bumped once and blocks cleared. -/
def c3WitKeep : File := ⟨"foo", 0, 3, 0, []⟩

def c3WitGone : File := ⟨"gone", 0, 4, 0, []⟩

def c3WitModel : Model :=
  ⟨[("foo", c3WitKeep), ("gone", c3WitGone)],
   [("foo", c3WitKeep), ("gone", c3WitGone)], [], [], false, 1, 1, 1⟩

theorem ReplaceLocal_removed_names_witness :
    alookup ((c3WitModel.ReplaceLocal [c3WitKeep] 7).«local») "gone" =
      some (tombstone c3WitGone) :=
  ((ReplaceLocal_removed_names c3WitModel [c3WitKeep] 7 "gone" c3WitGone (by decide)
      (by decide) (by decide)).1 (by decide)).1 (by decide)

/-! ### Claim C8: a second identical `ReplaceLocal` is a no-op -/

theorem markDeleted_append_tomb (m1 : Model) (L : FMap) (k : String) (v : File)
    (hloc1 : m1.«local» = L ++ [(k, v)])
    (hLk : alookup L k = none)
    (hnewer : (getOr m1.global k).NewerThan v = false)
    (hvfl : (v.Flags &&& FlagDeleted == 0) = true) :
    m1.markDeletedLocals L = (true, upsert L k (tombstone v)) := by
  unfold Model.markDeletedLocals
  rw [hloc1, List.foldl_append]
  rw [markFold_skip_all m1 L (false, L) (fun q hq => alookup_isSome_of_mem hq)]
  show markStep m1 (false, L) (k, v) = (true, upsert L k (tombstone v))
  show (match alookup L k with
    | some _ => ((false : Bool), L)
    | none =>
      if (getOr m1.global k).NewerThan v then ((false : Bool), L)
      else if v.Flags &&& FlagDeleted == 0 then (true, upsert L k (tombstone v))
      else ((false : Bool), upsert L k v)) = (true, upsert L k (tombstone v))
  rw [hLk, hnewer, hvfl]
  simp

theorem markDeleted_append_keep (m1 : Model) (L : FMap) (k : String) (v : File)
    (hloc1 : m1.«local» = L ++ [(k, v)])
    (hLk : alookup L k = none)
    (hnewer : (getOr m1.global k).NewerThan v = false)
    (hvfl : (v.Flags &&& FlagDeleted == 0) = false) :
    m1.markDeletedLocals L = (false, upsert L k v) := by
  unfold Model.markDeletedLocals
  rw [hloc1, List.foldl_append]
  rw [markFold_skip_all m1 L (false, L) (fun q hq => alookup_isSome_of_mem hq)]
  show markStep m1 (false, L) (k, v) = ((false : Bool), upsert L k v)
  show (match alookup L k with
    | some _ => ((false : Bool), L)
    | none =>
      if (getOr m1.global k).NewerThan v then ((false : Bool), L)
      else if v.Flags &&& FlagDeleted == 0 then (true, upsert L k (tombstone v))
      else ((false : Bool), upsert L k v)) = ((false : Bool), upsert L k v)
  rw [hLk, hnewer, hvfl]
  simp

/-- `ReplaceLocal` on a remoteless model whose local map is the map of `fs`
plus one extra binding absent from `fs`: the extra binding is tombstoned
(with a commit) when not yet deleted, and the whole call is a no-op when it
is already deleted. -/
theorem ReplaceLocal_append (m1 : Model) (fs : List File) (now : Int) (k : String)
    (v : File)
    (hrem1 : m1.remote = [])
    (hloc1 : m1.«local» = (fs.foldl (fun nl (f : File) => upsert nl f.Name f) []) ++ [(k, v)])
    (hglob1 : m1.global = m1.«local»)
    (hnames : (fs.map File.Name).Nodup)
    (hfreshk : ∀ g ∈ fs, g.Name ≠ k) :
    (v.Flags &&& FlagDeleted = 0 →
      m1.ReplaceLocal fs now =
        ⟨(fs.foldl (fun nl (f : File) => upsert nl f.Name f) []) ++ [(k, tombstone v)],
         (fs.foldl (fun nl (f : File) => upsert nl f.Name f) []) ++ [(k, tombstone v)],
         m1.remote, [], m1.delete, now, now, now⟩) ∧
    (v.Flags &&& FlagDeleted ≠ 0 → m1.ReplaceLocal fs now = m1) := by
  have hLnd : NodupKeys (fs.foldl (fun nl (f : File) => upsert nl f.Name f) []) :=
    nodupKeys_foldl_upsert (fun g : File => g.Name) id fs [] List.nodup_nil
  have hLfresh : alookup (fs.foldl (fun nl (f : File) => upsert nl f.Name f) []) k = none := by
    rw [alookup_buildLocalMap, lastWith_eq_none]
    intro g hg
    simp [hfreshk g hg]
  have hLlook : ∀ g ∈ fs,
      alookup (fs.foldl (fun nl (f : File) => upsert nl f.Name f) []) g.Name = some g := by
    intro g hg
    rw [alookup_buildLocalMap, lastWith_key_of_nodup File.Name hnames hg]
  have hlookL1 : ∀ g ∈ fs, alookup m1.«local» g.Name = some g := by
    intro g hg
    rw [hloc1, alookup_append, hLlook g hg]
  have hlookk : alookup m1.«local» k = some v := by
    rw [hloc1, alookup_append, hLfresh]
    simp [alookup]
  have hupd0 : (fs.any (fun g => !(getOr m1.«local» g.Name).Equals g)) = false := by
    rw [List.any_eq_false]
    intro g hg
    unfold getOr
    rw [hlookL1 g hg]
    simp [File.equals_refl]
  have hnewerk : (getOr m1.global k).NewerThan v = false := by
    unfold getOr
    rw [hglob1, hlookk]
    simp [File.newerThan_irrefl]
  constructor
  · intro hvfl0
    have hvflb : (v.Flags &&& FlagDeleted == 0) = true := by simp [hvfl0]
    have hmd := markDeleted_append_tomb m1
      (fs.foldl (fun nl (f : File) => upsert nl f.Name f) []) k v hloc1 hLfresh hnewerk hvflb
    have hmd1 : (m1.markDeletedLocals
        (fs.foldl (fun nl (f : File) => upsert nl f.Name f) [])).1 = true := by rw [hmd]
    have hmd2 : (m1.markDeletedLocals
        (fs.foldl (fun nl (f : File) => upsert nl f.Name f) [])).2 =
        upsert (fs.foldl (fun nl (f : File) => upsert nl f.Name f) []) k (tombstone v) := by
      rw [hmd]
    have hndT : NodupKeys (upsert (fs.foldl (fun nl (f : File) => upsert nl f.Name f) [])
        k (tombstone v)) := nodupKeys_upsert k (tombstone v) hLnd
    have hchT : globalUpdated (upsert (fs.foldl (fun nl (f : File) => upsert nl f.Name f) [])
        k (tombstone v)) m1.global = true := by
      have hmemT : ((k, tombstone v) : String × File) ∈
          upsert (fs.foldl (fun nl (f : File) => upsert nl f.Name f) []) k (tombstone v) := by
        rw [upsert_of_alookup_none (tombstone v) hLfresh]
        exact List.mem_append_right _ (List.mem_singleton.mpr rfl)
      have hgl : alookup m1.global k = some v := by
        rw [hglob1]
        exact hlookk
      exact globalUpdated_of_entry hmemT hgl (tombstone_not_equals v)
    rw [ReplaceLocal_eq, hupd0, hmd1, hmd2]
    rw [if_pos (by simp)]
    rw [commit_local_only m1 _ now hrem1 hndT hchT]
    rw [upsert_of_alookup_none (tombstone v) hLfresh]
  · intro hvfl1
    have hvflb : (v.Flags &&& FlagDeleted == 0) = false := by simp [hvfl1]
    have hmd := markDeleted_append_keep m1
      (fs.foldl (fun nl (f : File) => upsert nl f.Name f) []) k v hloc1 hLfresh hnewerk hvflb
    have hmd1 : (m1.markDeletedLocals
        (fs.foldl (fun nl (f : File) => upsert nl f.Name f) [])).1 = false := by rw [hmd]
    have hmd2 : (m1.markDeletedLocals
        (fs.foldl (fun nl (f : File) => upsert nl f.Name f) [])).2 =
        upsert (fs.foldl (fun nl (f : File) => upsert nl f.Name f) []) k v := by rw [hmd]
    have hlen : (upsert (fs.foldl (fun nl (f : File) => upsert nl f.Name f) []) k v).length =
        m1.«local».length := by
      rw [upsert_of_alookup_none v hLfresh, hloc1]
    have hdec : (decide ((upsert (fs.foldl (fun nl (f : File) => upsert nl f.Name f) [])
        k v).length ≠ m1.«local».length)) = false := by
      rw [hlen]
      simp
    rw [ReplaceLocal_eq, hupd0, hmd1, hmd2, hdec]
    rw [if_neg (by simp : ¬ ((false || false || false : Bool) = true))]

/-- Claim C8: starting from a remoteless state whose local and global maps are
exactly the map of `fs` (the state scenario (1) produces), `updateLocal` of a
fresh non-deleted file followed by `ReplaceLocal fs` tombstones that file with
one version bump, and a second `ReplaceLocal fs` with the same list is a
complete no-op: the model — `local`, `global`, `need`, `updatedLocal`,
`lastIdxBcastRequest` — is unchanged and the tombstone's version is not
incremented again. -/
theorem ReplaceLocal_second_noop (m0 : Model) (fs : List File) (f : File)
    (now1 now2 now3 : Int)
    (hrem : m0.remote = [])
    (hloc : m0.«local» = fs.foldl (fun nl (f : File) => upsert nl f.Name f) [])
    (hglob : m0.global = m0.«local»)
    (hnames : (fs.map File.Name).Nodup)
    (hfresh : ∀ g ∈ fs, g.Name ≠ f.Name)
    (hfl : f.Flags &&& FlagDeleted = 0) :
    (((m0.updateLocal f now1).ReplaceLocal fs now2).ReplaceLocal fs now3 =
      (m0.updateLocal f now1).ReplaceLocal fs now2) ∧
    alookup ((m0.updateLocal f now1).ReplaceLocal fs now2).«local» f.Name =
      some (tombstone f) := by
  have hLfresh : alookup (fs.foldl (fun nl (f : File) => upsert nl f.Name f) []) f.Name
      = none := by
    rw [alookup_buildLocalMap, lastWith_eq_none]
    intro g hg
    simp [hfresh g hg]
  have hlookA : alookup m0.«local» f.Name = none := by
    rw [hloc]
    exact hLfresh
  have hndA : NodupKeys (upsert m0.«local» f.Name f) := by
    rw [hloc]
    exact nodupKeys_upsert _ _
      (nodupKeys_foldl_upsert (fun g : File => g.Name) id fs [] List.nodup_nil)
  have hchA : globalUpdated (upsert m0.«local» f.Name f) m0.global = true := by
    refine globalUpdated_of_length_ne ?_
    rw [length_upsert_of_alookup_none f hlookA, hglob]
    omega
  have hupA : upsert m0.«local» f.Name f = m0.«local» ++ [(f.Name, f)] :=
    upsert_of_alookup_none f hlookA
  have hA : m0.updateLocal f now1 =
      ⟨(fs.foldl (fun nl (f : File) => upsert nl f.Name f) []) ++ [(f.Name, f)],
       (fs.foldl (fun nl (f : File) => upsert nl f.Name f) []) ++ [(f.Name, f)],
       m0.remote, [], m0.delete, now1, now1, now1⟩ := by
    unfold Model.updateLocal
    rw [hlookA]
    rw [commit_local_only m0 _ now1 hrem hndA hchA]
    rw [hupA, hloc]
  have hB := ReplaceLocal_append
    (⟨(fs.foldl (fun nl (f : File) => upsert nl f.Name f) []) ++ [(f.Name, f)],
      (fs.foldl (fun nl (f : File) => upsert nl f.Name f) []) ++ [(f.Name, f)],
      m0.remote, [], m0.delete, now1, now1, now1⟩ : Model)
    fs now2 f.Name f hrem rfl rfl hnames hfresh
  have hB1 := hB.1 hfl
  have hC := ReplaceLocal_append
    (⟨(fs.foldl (fun nl (f : File) => upsert nl f.Name f) []) ++ [(f.Name, tombstone f)],
      (fs.foldl (fun nl (f : File) => upsert nl f.Name f) []) ++ [(f.Name, tombstone f)],
      m0.remote, [], m0.delete, now2, now2, now2⟩ : Model)
    fs now3 f.Name (tombstone f) hrem rfl rfl hnames hfresh
  have htfl : (tombstone f).Flags &&& FlagDeleted ≠ 0 := by
    show FlagDeleted &&& FlagDeleted ≠ 0
    decide
  have hC2 := hC.2 htfl
  constructor
  · rw [hA, hB1]
    exact hC2
  · rw [hA, hB1]
    show alookup ((fs.foldl (fun nl (f : File) => upsert nl f.Name f) []) ++
      [(f.Name, tombstone f)]) f.Name = some (tombstone f)
    rw [alookup_append, hLfresh]
    simp [alookup]

/-- Claim C8 witness: one kept file, one fresh file, concrete timestamps. -/
def c8Kept : File := ⟨"foo", 0, 3, 0, []⟩

def c8Fresh : File := ⟨"new", 0, 10, 0, []⟩

def c8Model : Model := ⟨[("foo", c8Kept)], [("foo", c8Kept)], [], [], false, 1, 1, 1⟩

theorem ReplaceLocal_second_noop_witness :
    (((c8Model.updateLocal c8Fresh 2).ReplaceLocal [c8Kept] 3).ReplaceLocal [c8Kept] 4 =
      (c8Model.updateLocal c8Fresh 2).ReplaceLocal [c8Kept] 3) ∧
    alookup ((c8Model.updateLocal c8Fresh 2).ReplaceLocal [c8Kept] 3).«local» "new" =
      some (tombstone c8Fresh) :=
  ReplaceLocal_second_noop c8Model [c8Kept] c8Fresh 2 3 4 (by decide) (by decide)
    (by decide) (by decide) (by decide) (by decide)

end Syncthing
